import Mathlib

/-!
Verification of the process-scheduling simulator.

This file gives a shallow embedding of `process.py` and `scheduler.py`:
the mutable `Process` objects become an immutable structure with explicit
state passing, the scheduler queues become lists, and Python `assert`
failures become `none` results.  Each policy's `step` additionally emits a
list of events recording the order of the side effects inside one step,
mirroring the statement order of the source.
-/

/-- The data of a single process (`process.py`, class `Process`). -/
structure Process where
  id : String
  ex_time : Int
  arrival_time : Int
  processed_time : Int
  comp_time : Int
  wait_time : Int
deriving Repr, DecidableEq

/-- A freshly constructed process: `Process.__init__` sets the three
simulation counters to zero. -/
def mkProcess (i : String) (ex : Int) (arr : Int) : Process :=
  { id := i, ex_time := ex, arrival_time := arr,
    processed_time := 0, comp_time := 0, wait_time := 0 }

/-- `Process.time_left` property. -/
def Process.time_left (p : Process) : Int := p.ex_time - p.processed_time

/-- `Process.is_done` property: `processed_time >= ex_time`. -/
def Process.is_done (p : Process) : Bool := decide (p.ex_time ≤ p.processed_time)

/-- `Process.run`: asserts `running_time > 0`; runs for
`min(time_left, running_time)`, returning `(time_ran, time_leftover)`
and the updated process. -/
def Process.run (p : Process) (running_time : Int) : Option (Int × Int × Process) :=
  if 0 < running_time then
    let time_ran := min p.time_left running_time
    some (time_ran, running_time - time_ran,
      { p with processed_time := p.processed_time + time_ran,
               comp_time := p.comp_time + time_ran })
  else none

/-- `Process.wait`: asserts `waiting_time >= 0`; adds the duration to
`wait_time` and `comp_time`. -/
def Process.wait (p : Process) (waiting_time : Int) : Option Process :=
  if 0 ≤ waiting_time then
    some { p with wait_time := p.wait_time + waiting_time,
                  comp_time := p.comp_time + waiting_time }
  else none

/-- `Process.wait_arrival`: asserts `waiting_time >= 0`; consumes up to
`arrival_time` from the duration, passes the rest to `wait`, and returns
whether `arrival_time` reached exactly 0. -/
def Process.wait_arrival (p : Process) (waiting_time : Int) : Option (Bool × Process) :=
  if 0 ≤ waiting_time then
    let a := min p.arrival_time waiting_time
    let p1 : Process := { p with arrival_time := p.arrival_time - a }
    match p1.wait (waiting_time - a) with
    | some p2 => some (decide (p2.arrival_time = 0), p2)
    | none => none
  else none

/-- `Process.__lt__`: compare by `arrival_time`, tie-broken by `ex_time`. -/
def Process.ltP (a b : Process) : Bool :=
  if a.arrival_time = b.arrival_time then decide (a.ex_time < b.ex_time)
  else decide (a.arrival_time < b.arrival_time)

/-- `bisect.insort` on a list of processes under `Process.__lt__`
(insertion after all elements not greater than the new one). -/
def insort (l : List Process) (x : Process) : List Process :=
  match l with
  | [] => [x]
  | a :: rest => if Process.ltP x a then x :: a :: rest else a :: insort rest x

/-- `list.append` used as the runnable-insertion rule of FIFO and
Round-Robin (`add_runnable`). -/
def appendIns (l : List Process) (x : Process) : List Process := l ++ [x]

/-- Python's stable `list.sort()` under `Process.__lt__`, realised as
insertion sort (insertion after equals preserves stability). -/
def sortP (l : List Process) : List Process := l.foldl insort []

/-- Events recording the order of the side effects inside one `step`,
in source statement order. -/
inductive Ev where
  | stallAdv (d : Int)
  | ranQuantum (d : Int)
  | clockAdv (d : Int)
  | accrue (i : String) (d : Int)
  | promote (i : String)
  | requeue (i : String)
  | finish (i : String)
deriving Repr, DecidableEq

/-- The mutable state of a `Scheduler` object. -/
structure SchedState where
  done_processes : List Process
  runnable : List Process
  waiting : List Process
  time : Int
  step_time_ran : Int
deriving Repr, DecidableEq

/-- `Scheduler.is_done`: both queues empty. -/
def SchedState.isDone (s : SchedState) : Bool := s.runnable.isEmpty && s.waiting.isEmpty

/-- `Scheduler.__init__`: partition the given processes on
`arrival_time <= 0` into `runnable`/`waiting` (preserving order), then
sort `waiting`. -/
def initState (procs : List Process) : SchedState :=
  { done_processes := []
    runnable := procs.filter (fun p => decide (p.arrival_time ≤ 0))
    waiting := sortP (procs.filter (fun p => decide (0 < p.arrival_time)))
    time := 0
    step_time_ran := 0 }

/-- The four scheduling policies. -/
inductive Policy where
  | fifo
  | sjf
  | rr (slice : Int)
  | srtf
deriving Repr, DecidableEq

/-- The runnable-insertion rule of each policy (`add_runnable`). -/
def insertOf : Policy → List Process → Process → List Process
  | Policy.fifo => appendIns
  | Policy.sjf => insort
  | Policy.rr _ => appendIns
  | Policy.srtf => insort

/-- Construction of each scheduler: SJF and SRTF additionally sort the
initial runnable queue. -/
def initSched : Policy → List Process → SchedState
  | Policy.fifo, procs => initState procs
  | Policy.sjf, procs =>
    let s := initState procs
    { s with runnable := sortP s.runnable }
  | Policy.rr _, procs => initState procs
  | Policy.srtf, procs =>
    let s := initState procs
    { s with runnable := sortP s.runnable }

/-- The shared part of `Scheduler.get_next_process`: if `runnable` is
empty and `waiting` is not, dequeue the head of `waiting`, advance the
clock by its remaining `arrival_time` (a stall), zero its
`arrival_time` and insert it into `runnable` via the policy's rule. -/
def stallQ (ins : List Process → Process → List Process) (s : SchedState) :
    SchedState × List Ev :=
  match s.runnable, s.waiting with
  | [], w :: rest =>
    ({ s with waiting := rest
              time := s.time + w.arrival_time
              runnable := ins [] { w with arrival_time := 0 } },
     [Ev.stallAdv w.arrival_time])
  | _, _ => (s, [])

/-- Each policy's `get_next_process`: the shared stall handling followed
by popping the head of `runnable` (`IndexError`, i.e. `none`, if both
queues were empty). -/
def getNextQ (ins : List Process → Process → List Process) (s : SchedState) :
    Option (Process × SchedState × List Ev) :=
  match stallQ ins s with
  | (s1, ev) =>
    match s1.runnable with
    | [] => none
    | c :: rest => some (c, { s1 with runnable := rest }, ev)

/-- The wait-accrual loop `for process in self.runnable: process.wait(d)`. -/
def waitAll (d : Int) : List Process → Option (List Process)
  | [] => some []
  | p :: ps =>
    match p.wait d, waitAll d ps with
    | some q, some qs => some (q :: qs)
    | _, _ => none

/-- The arrival loop applies `wait_arrival(d)` to every process of the
`waiting` snapshot, in order. -/
def arriveAll (d : Int) : List Process → Option (List (Bool × Process))
  | [] => some []
  | p :: ps =>
    match p.wait_arrival d, arriveAll d ps with
    | some bq, some rest => some (bq :: rest)
    | _, _ => none

/-- Each newly runnable process is inserted into `runnable` via the
policy's rule, in arrival-loop order. -/
def promoteAll (ins : List Process → Process → List Process)
    (res : List (Bool × Process)) (r : List Process) : List Process :=
  res.foldl (fun acc bp => if bp.1 then ins acc bp.2 else acc) r

/-- Number of processes that became runnable: each one triggers
`self._waiting = self._waiting[1:]`, dropping the current head. -/
def dropCount (res : List (Bool × Process)) : Nat := res.countP (fun bp => bp.1)

/-- The waiting list after the arrival loop: every element has been
mutated by `wait_arrival`, and the first `dropCount` have been removed. -/
def newWaiting (res : List (Bool × Process)) : List Process :=
  (res.map Prod.snd).drop (dropCount res)

def accrueEvents (d : Int) (r : List Process) : List Ev :=
  r.map (fun p => Ev.accrue p.id d)

def promoteEvents (res : List (Bool × Process)) : List Ev :=
  (res.filter (fun bp => bp.1)).map (fun bp => Ev.promote bp.2.id)

/-- The queue-advance pattern shared by all four `step` methods: accrue
`wait(d)` over `runnable`, then offer `wait_arrival(d)` to `waiting`,
promoting the newly eligible. -/
def afterQueues (ins : List Process → Process → List Process) (d : Int)
    (s : SchedState) : Option (SchedState × List Ev) :=
  match waitAll d s.runnable, arriveAll d s.waiting with
  | some r, some res =>
    some ({ s with runnable := promoteAll ins res r, waiting := newWaiting res },
          accrueEvents d s.runnable ++ promoteEvents res)
  | _, _ => none

/-- `FIFOScheduler.step` / `SJFScheduler.step` (they differ only in the
insertion rule): run the head process for its full `ex_time`, assert
`leftover == 0`, record it done, advance the clock, then accrue waiting
time and promote arrivals. -/
def noPreemptStep (ins : List Process → Process → List Process) (s : SchedState) :
    Option (SchedState × List Ev) :=
  match getNextQ ins s with
  | none => none
  | some (c, s1, ev0) =>
    match c.run c.ex_time with
    | none => none
    | some (t, lft, c1) =>
      if lft = 0 then
        match afterQueues ins t
            { s1 with done_processes := s1.done_processes ++ [c1]
                      step_time_ran := t
                      time := s1.time + t } with
        | none => none
        | some (s3, ev1) =>
          some (s3, ev0 ++ [Ev.ranQuantum t, Ev.finish c1.id, Ev.clockAdv t] ++ ev1)
      else none

/-- The shared body of `RoundRobinScheduler.step` and
`SRTFScheduler.step` (textually identical in the source except for the
quantum computation and the insertion rule): run the head process for
the granted quantum, accrue and promote, then either record the process
done or requeue it, and finally advance the clock. -/
def preemptStep (ins : List Process → Process → List Process)
    (grant : Process → List Process → Int) (s : SchedState) :
    Option (SchedState × List Ev) :=
  match getNextQ ins s with
  | none => none
  | some (c, s1, ev0) =>
    match c.run (grant c s1.waiting) with
    | none => none
    | some (t, _lft, c1) =>
      match afterQueues ins t { s1 with step_time_ran := t } with
      | none => none
      | some (s3, ev1) =>
        if c1.is_done then
          some ({ s3 with done_processes := s3.done_processes ++ [c1]
                          time := s3.time + t },
                ev0 ++ [Ev.ranQuantum t] ++ ev1 ++ [Ev.finish c1.id] ++ [Ev.clockAdv t])
        else
          some ({ s3 with runnable := ins s3.runnable c1
                          time := s3.time + t },
                ev0 ++ [Ev.ranQuantum t] ++ ev1 ++ [Ev.requeue c1.id] ++ [Ev.clockAdv t])

/-- `RoundRobinScheduler.step`: the quantum is the fixed time slice,
insertion appends at the tail. -/
def rrStep (slice : Int) : SchedState → Option (SchedState × List Ev) :=
  preemptStep appendIns (fun _ _ => slice)

/-- The quantum computed by `SRTFScheduler.step`: the current process's
`time_left`, clipped to the earliest waiting process's `arrival_time`
when `time_left > first.arrival_time + first.time_left`. -/
def srtfGrant (c : Process) (w : List Process) : Int :=
  match w with
  | [] => c.time_left
  | f :: _ =>
    if f.arrival_time + f.time_left < c.time_left then f.arrival_time else c.time_left

/-- `SRTFScheduler.step`: the clipped quantum, ordered insertion. -/
def srtfStep : SchedState → Option (SchedState × List Ev) :=
  preemptStep insort srtfGrant

/-- Dispatch of `step` over the four policies. -/
def stepOf : Policy → SchedState → Option (SchedState × List Ev)
  | Policy.fifo => noPreemptStep appendIns
  | Policy.sjf => noPreemptStep insort
  | Policy.rr slice => rrStep slice
  | Policy.srtf => srtfStep

/-- The aggregate statistics record built by `Scheduler.run`.  Python
stores the two float quotients; the embedding stores the exact
dividends and the divisor, and exposes the quotients as the derived
rational values `avg_comp_time` and `avg_wait_time` below (rational
division does not evaluate inside Lean's kernel, sums do). -/
structure Stats where
  tot_comp : Int
  tot_wait : Int
  num_processes_ran : Int
deriving Repr, DecidableEq

/-- `stats['avg_comp_time']`: the arithmetic mean recorded by `run`. -/
def Stats.avg_comp_time (st : Stats) : Rat :=
  (st.tot_comp : Rat) / (st.num_processes_ran : Rat)

/-- `stats['avg_wait_time']`: the arithmetic mean recorded by `run`. -/
def Stats.avg_wait_time (st : Stats) : Rat :=
  (st.tot_wait : Rat) / (st.num_processes_ran : Rat)

/-- The result of the statistics computation: either a record or a
`ZeroDivisionError`. -/
inductive RunOutcome where
  | ok (st : Stats)
  | divZero
deriving Repr, DecidableEq

def sumComp (l : List Process) : Int := l.foldl (fun a p => a + p.comp_time) 0

def sumWait (l : List Process) : Int := l.foldl (fun a p => a + p.wait_time) 0

/-- The statistics loop of `Scheduler.run`: reading `completion_time`
asserts `is_done`; dividing by the count raises `ZeroDivisionError` when
no process ran. -/
def computeStats (s : SchedState) : Option RunOutcome :=
  if s.done_processes.all Process.is_done then
    if s.done_processes.length = 0 then some RunOutcome.divZero
    else some (RunOutcome.ok
      { tot_comp := sumComp s.done_processes
        tot_wait := sumWait s.done_processes
        num_processes_ran := (s.done_processes.length : Int) })
  else none

/-- `Scheduler.run`: step until `is_done`, then compute statistics.
Fuel makes the loop structurally recursive; exhausted fuel or a failing
step yields `none`. -/
def runSched (pol : Policy) : Nat → SchedState → Option (SchedState × RunOutcome)
  | 0, _ => none
  | fuel + 1, s =>
    if s.isDone then
      match computeStats s with
      | some o => some (s, o)
      | none => none
    else
      match stepOf pol s with
      | none => none
      | some (s1, _) => runSched pol fuel s1

/-- Reachability: the states a scheduler passes through during a run. -/
inductive Reach (pol : Policy) : SchedState → SchedState → Prop
  | refl (s : SchedState) : Reach pol s s
  | step {s t u : SchedState} {ev : List Ev} :
      Reach pol s t → stepOf pol t = some (u, ev) → Reach pol s u

/-! ### Characterisations of the `Process` operations -/

/-- The image of `Process.wait` for a non-negative duration. -/
def waitF (d : Int) (p : Process) : Process :=
  { p with wait_time := p.wait_time + d, comp_time := p.comp_time + d }

/-- The image of `Process.wait_arrival` for a non-negative duration. -/
def arrF (d : Int) (p : Process) : Bool × Process :=
  (decide (p.arrival_time - min p.arrival_time d = 0),
   { p with arrival_time := p.arrival_time - min p.arrival_time d,
            wait_time := p.wait_time + (d - min p.arrival_time d),
            comp_time := p.comp_time + (d - min p.arrival_time d) })

theorem Process.wait_eq (p : Process) (d : Int) (h : 0 ≤ d) :
    p.wait d = some (waitF d p) := by
  simp [Process.wait, waitF, h]

theorem Process.wait_neg (p : Process) (d : Int) (h : d < 0) :
    p.wait d = none := by
  simp [Process.wait]
  omega

theorem Process.wait_arrival_eq (p : Process) (d : Int) (h : 0 ≤ d) :
    p.wait_arrival d = some (arrF d p) := by
  have hmin : min p.arrival_time d ≤ d := min_le_right _ _
  have h2 : 0 ≤ d - min p.arrival_time d := by omega
  simp [Process.wait_arrival, Process.wait, arrF, h, h2]

theorem Process.wait_arrival_neg (p : Process) (d : Int) (h : d < 0) :
    p.wait_arrival d = none := by
  simp [Process.wait_arrival]
  omega

theorem Process.run_eq (p : Process) (d : Int) (h : 0 < d) :
    p.run d = some (min p.time_left d, d - min p.time_left d,
      { p with processed_time := p.processed_time + min p.time_left d,
               comp_time := p.comp_time + min p.time_left d }) := by
  simp [Process.run, h]

theorem Process.run_pos {p : Process} {d t l : Int} {q : Process}
    (h : p.run d = some (t, l, q)) : 0 < d := by
  by_contra hd
  simp [Process.run] at h
  omega

theorem Process.run_inv {p : Process} {d t l : Int} {q : Process}
    (h : p.run d = some (t, l, q)) :
    t = min p.time_left d ∧ l = d - t ∧
      q = { p with processed_time := p.processed_time + t,
                   comp_time := p.comp_time + t } := by
  have hd : 0 < d := Process.run_pos h
  rw [Process.run_eq p d hd] at h
  injection h with h1
  injection h1 with h2 h3
  injection h3 with h4 h5
  subst h2
  exact ⟨rfl, by omega, h5.symm⟩

/-! ### The ordering relation and ordered insertion -/

theorem ltP_asymm {a b : Process} (h : Process.ltP a b = true) :
    Process.ltP b a = false := by
  unfold Process.ltP at *
  split_ifs at * <;> simp_all <;> omega

theorem ltP_trans {a b c : Process} (h1 : Process.ltP a b = true)
    (h2 : Process.ltP b c = true) : Process.ltP a c = true := by
  unfold Process.ltP at *
  split_ifs at * <;> simp_all <;> omega

/-- Sorted in the ascending (arrival_time, ex_time) order: no later
element is strictly below an earlier one. -/
def SortedP (l : List Process) : Prop :=
  l.Pairwise (fun a b => Process.ltP b a = false)

theorem mem_insort {x p : Process} {l : List Process} :
    x ∈ insort l p ↔ x ∈ l ∨ x = p := by
  induction l with
  | nil => simp [insort]
  | cons a rest ih =>
    by_cases h : Process.ltP p a = true
    · simp [insort, h]
      tauto
    · simp only [insort, h]
      simp [List.mem_cons, ih]
      tauto

theorem insort_ne_nil (l : List Process) (p : Process) : insort l p ≠ [] := by
  cases l with
  | nil => simp [insort]
  | cons a rest =>
    unfold insort
    split_ifs <;> simp

theorem sorted_insort {l : List Process} {x : Process} (hl : SortedP l) :
    SortedP (insort l x) := by
  induction l with
  | nil => simp [insort, SortedP]
  | cons a rest ih =>
    rcases List.pairwise_cons.mp hl with ⟨ha, hrest⟩
    by_cases h : Process.ltP x a = true
    · unfold insort
      rw [if_pos h]
      refine List.pairwise_cons.mpr ⟨?_, hl⟩
      intro y hy
      rcases List.mem_cons.mp hy with rfl | hy1
      · exact ltP_asymm h
      · cases hv : Process.ltP y x with
        | false => rfl
        | true =>
          have := ltP_trans hv h
          rw [ha y hy1] at this
          exact absurd this (by simp)
    · unfold insort
      rw [if_neg h]
      refine List.pairwise_cons.mpr ⟨?_, ih hrest⟩
      intro z hz
      rcases mem_insort.mp hz with hz1 | rfl
      · exact ha z hz1
      · exact Bool.eq_false_iff.mpr h

theorem mem_sortP_aux {x : Process} {l acc : List Process} :
    x ∈ l.foldl insort acc ↔ x ∈ acc ∨ x ∈ l := by
  induction l generalizing acc with
  | nil => simp
  | cons a rest ih =>
    simp only [List.foldl_cons, ih, mem_insort, List.mem_cons]
    tauto

theorem mem_sortP {x : Process} {l : List Process} :
    x ∈ sortP l ↔ x ∈ l := by
  simp [sortP, mem_sortP_aux]

theorem sorted_sortP_aux {l acc : List Process} (hacc : SortedP acc) :
    SortedP (l.foldl insort acc) := by
  induction l generalizing acc with
  | nil => exact hacc
  | cons a rest ih => exact ih (sorted_insort hacc)

theorem sorted_sortP (l : List Process) : SortedP (sortP l) :=
  sorted_sortP_aux (by simp [SortedP])

theorem mem_appendIns {x p : Process} {l : List Process} :
    x ∈ appendIns l p ↔ x ∈ l ∨ x = p := by
  simp [appendIns]

/-- The two properties of an insertion rule the invariants rely on:
insertion adds exactly the new element, and inserting into the empty
queue is non-empty. -/
def InsOK (ins : List Process → Process → List Process) : Prop :=
  (∀ (l : List Process) (p x : Process), x ∈ ins l p → x ∈ l ∨ x = p) ∧
  (∀ p : Process, ins [] p ≠ [])

theorem insOK_appendIns : InsOK appendIns :=
  ⟨fun _ _ _ h => mem_appendIns.mp h, fun p => by simp [appendIns]⟩

theorem insOK_insort : InsOK insort :=
  ⟨fun _ _ _ h => mem_insort.mp h, insort_ne_nil []⟩

theorem insOK_insertOf (pol : Policy) : InsOK (insertOf pol) := by
  cases pol <;> simp [insertOf] <;> first
    | exact insOK_appendIns
    | exact insOK_insort

/-! ### The queue-advance loops for non-negative durations -/

theorem waitAll_eq (d : Int) (h : 0 ≤ d) (l : List Process) :
    waitAll d l = some (l.map (waitF d)) := by
  induction l with
  | nil => rfl
  | cons p ps ih => simp [waitAll, Process.wait_eq p d h, ih]

theorem arriveAll_eq (d : Int) (h : 0 ≤ d) (l : List Process) :
    arriveAll d l = some (l.map (arrF d)) := by
  induction l with
  | nil => rfl
  | cons p ps ih => simp [arriveAll, Process.wait_arrival_eq p d h, ih]

theorem promoteAll_cons (ins : List Process → Process → List Process)
    (bp : Bool × Process) (rest : List (Bool × Process)) (r : List Process) :
    promoteAll ins (bp :: rest) r = promoteAll ins rest (if bp.1 then ins r bp.2 else r) := rfl

theorem mem_promoteAll {ins : List Process → Process → List Process}
    (hins : ∀ (l : List Process) (p x : Process), x ∈ ins l p → x ∈ l ∨ x = p)
    {res : List (Bool × Process)} {r : List Process} {x : Process}
    (hx : x ∈ promoteAll ins res r) : x ∈ r ∨ ∃ bp ∈ res, x = bp.2 := by
  induction res generalizing r with
  | nil => exact Or.inl hx
  | cons bp rest ih =>
    rw [promoteAll_cons] at hx
    rcases ih hx with hr | ⟨bq, hbq, hxq⟩
    · by_cases h : bp.1 = true
      · rw [if_pos h] at hr
        rcases hins r bp.2 x hr with h1 | h2
        · exact Or.inl h1
        · exact Or.inr ⟨bp, List.mem_cons_self _ _, h2⟩
      · rw [if_neg h] at hr
        exact Or.inl hr
    · exact Or.inr ⟨bq, List.mem_cons_of_mem _ hbq, hxq⟩

theorem promoteAll_append_eq (res : List (Bool × Process)) (r : List Process) :
    promoteAll appendIns res r = r ++ (res.filter (fun bp => bp.1)).map Prod.snd := by
  induction res generalizing r with
  | nil => simp [promoteAll]
  | cons bp rest ih =>
    rw [promoteAll_cons, ih]
    by_cases h : bp.1 = true <;> simp [h, appendIns]

theorem sorted_promoteAll {res : List (Bool × Process)} {r : List Process}
    (hr : SortedP r) : SortedP (promoteAll insort res r) := by
  induction res generalizing r with
  | nil => exact hr
  | cons bp rest ih =>
    rw [promoteAll_cons]
    by_cases h : bp.1 = true
    · rw [if_pos h]
      exact ih (sorted_insort hr)
    · rw [if_neg h]
      exact ih hr

theorem mem_newWaiting {res : List (Bool × Process)} {x : Process}
    (h : x ∈ newWaiting res) : ∃ bp ∈ res, bp.2 = x := by
  have h1 : x ∈ res.map Prod.snd := List.drop_subset _ _ h
  exact List.mem_map.mp h1

theorem ltP_waitF (d : Int) (a b : Process) :
    Process.ltP (waitF d a) (waitF d b) = Process.ltP a b := rfl

theorem sortedP_map_waitF {d : Int} {l : List Process} (h : SortedP l) :
    SortedP (l.map (waitF d)) := by
  unfold SortedP at *
  rw [List.pairwise_map]
  exact h.imp (fun hab => hab)

theorem afterQueues_eq (ins : List Process → Process → List Process) (d : Int)
    (s : SchedState) (h : 0 ≤ d) :
    afterQueues ins d s =
      some ({ s with runnable := promoteAll ins (s.waiting.map (arrF d)) (s.runnable.map (waitF d))
                     waiting := newWaiting (s.waiting.map (arrF d)) },
            accrueEvents d s.runnable ++ promoteEvents (s.waiting.map (arrF d))) := by
  unfold afterQueues
  rw [waitAll_eq d h, arriveAll_eq d h]

/-! ### Counter invariants -/

/-- The counter relations every live process maintains. -/
def ProcOK (p : Process) : Prop :=
  p.comp_time = p.wait_time + p.processed_time ∧
  0 ≤ p.processed_time ∧ p.processed_time ≤ p.ex_time

/-- Every process of every queue keeps `ProcOK`, and finished processes
have been run to exactly their execution time. -/
def StateOK (s : SchedState) : Prop :=
  (∀ p ∈ s.runnable, ProcOK p) ∧ (∀ p ∈ s.waiting, ProcOK p) ∧
  (∀ p ∈ s.done_processes, ProcOK p ∧ p.ex_time ≤ p.processed_time)

theorem procOK_waitF {p : Process} {d : Int} (hp : ProcOK p) :
    ProcOK (waitF d p) := by
  simp only [ProcOK, waitF] at hp ⊢
  omega

theorem procOK_arrF {p : Process} {d : Int} (hp : ProcOK p) :
    ProcOK (arrF d p).2 := by
  simp only [ProcOK, arrF] at hp ⊢
  omega

theorem procOK_arrival {p : Process} {v : Int} (hp : ProcOK p) :
    ProcOK { p with arrival_time := v } := hp

/-! ### Case analyses of the stall and selection machinery -/

theorem stallQ_eq_pos (ins : List Process → Process → List Process)
    {s : SchedState} {w : Process} {rest : List Process}
    (h1 : s.runnable = []) (h2 : s.waiting = w :: rest) :
    stallQ ins s =
      ({ s with waiting := rest
                time := s.time + w.arrival_time
                runnable := ins [] { w with arrival_time := 0 } },
       [Ev.stallAdv w.arrival_time]) := by
  unfold stallQ
  rw [h1, h2]

theorem stallQ_eq_id_of_runnable (ins : List Process → Process → List Process)
    {s : SchedState} {a : Process} {rs : List Process}
    (h1 : s.runnable = a :: rs) : stallQ ins s = (s, []) := by
  unfold stallQ
  rw [h1]

theorem stallQ_eq_id_of_empty (ins : List Process → Process → List Process)
    {s : SchedState} (h2 : s.waiting = []) : stallQ ins s = (s, []) := by
  unfold stallQ
  rw [h2]
  cases h1 : s.runnable <;> rfl

theorem getNextQ_eq_pop (ins : List Process → Process → List Process)
    {s : SchedState} {a : Process} {rs : List Process} (hr : s.runnable = a :: rs) :
    getNextQ ins s = some (a, { s with runnable := rs }, []) := by
  unfold getNextQ
  rw [stallQ_eq_id_of_runnable ins hr]
  simp [hr]

theorem getNextQ_eq_stall (ins : List Process → Process → List Process)
    {s : SchedState} {w : Process} {rest : List Process} {c0 : Process}
    {rest2 : List Process} (hr : s.runnable = []) (hw : s.waiting = w :: rest)
    (hi : ins [] { w with arrival_time := 0 } = c0 :: rest2) :
    getNextQ ins s =
      some (c0, { s with waiting := rest, time := s.time + w.arrival_time,
                         runnable := rest2 },
            [Ev.stallAdv w.arrival_time]) := by
  unfold getNextQ
  rw [stallQ_eq_pos ins hr hw]
  simp [hi]

theorem getNextQ_eq_none (ins : List Process → Process → List Process)
    {s : SchedState} (hr : s.runnable = []) (hw : s.waiting = []) :
    getNextQ ins s = none := by
  unfold getNextQ
  rw [stallQ_eq_id_of_empty ins hw]
  simp [hr]

theorem getNextQ_cases {ins : List Process → Process → List Process}
    {s : SchedState} {c : Process} {s1 : SchedState} {ev : List Ev}
    (h : getNextQ ins s = some (c, s1, ev)) :
    (∃ rs, s.runnable = c :: rs ∧ s1 = { s with runnable := rs } ∧ ev = []) ∨
    (∃ w rest rest2, s.runnable = [] ∧ s.waiting = w :: rest ∧
       ins [] { w with arrival_time := 0 } = c :: rest2 ∧
       s1 = { s with waiting := rest, time := s.time + w.arrival_time,
                     runnable := rest2 } ∧
       ev = [Ev.stallAdv w.arrival_time]) := by
  cases hr : s.runnable with
  | cons a rs =>
    left
    rw [getNextQ_eq_pop ins hr] at h
    simp only [Option.some.injEq, Prod.mk.injEq] at h
    obtain ⟨h1, h2, h3⟩ := h
    subst h1
    exact ⟨rs, rfl, h2.symm, h3.symm⟩
  | nil =>
    cases hw : s.waiting with
    | nil =>
      exfalso
      rw [getNextQ_eq_none ins hr hw] at h
      exact Option.noConfusion h
    | cons w rest =>
      right
      cases hi : ins [] { w with arrival_time := 0 } with
      | nil =>
        exfalso
        unfold getNextQ at h
        rw [stallQ_eq_pos ins hr hw] at h
        simp [hi] at h
      | cons c0 rest2 =>
        rw [getNextQ_eq_stall ins hr hw hi] at h
        simp only [Option.some.injEq, Prod.mk.injEq] at h
        obtain ⟨h1, h2, h3⟩ := h
        subst h1
        exact ⟨w, rest, rest2, rfl, rfl, hi, h2.symm, h3.symm⟩

/-! ### Effect of one step on the counter invariants -/

theorem run_stateFacts {c : Process} {d t lft : Int} {c1 : Process}
    (h : c.run d = some (t, lft, c1)) (hc : ProcOK c) :
    ProcOK c1 ∧ 0 ≤ t ∧ c1.ex_time = c.ex_time ∧ c1.wait_time = c.wait_time ∧
    c1.id = c.id ∧
    (lft = 0 → d = c.ex_time → c1.processed_time = c1.ex_time) ∧
    (c1.is_done = true → c1.processed_time = c1.ex_time) := by
  obtain ⟨ht, hlft, hc1⟩ := Process.run_inv h
  have hd : 0 < d := Process.run_pos h
  subst hc1
  subst ht
  obtain ⟨hca, hcb, hcc⟩ := hc
  unfold Process.time_left at *
  refine ⟨⟨?_, ?_, ?_⟩, ?_, rfl, rfl, rfl, fun h4 h5 => ?_, fun h4 => ?_⟩
  · dsimp only
    omega
  · dsimp only
    omega
  · dsimp only
    omega
  · omega
  · dsimp only at h5 ⊢
    omega
  · simp only [Process.is_done, decide_eq_true_eq] at h4
    dsimp only at h4 ⊢
    omega

theorem getNextQ_ok {ins : List Process → Process → List Process}
    (hins : InsOK ins) {s : SchedState} {c : Process} {s1 : SchedState} {ev : List Ev}
    (h : getNextQ ins s = some (c, s1, ev)) (hs : StateOK s) :
    ProcOK c ∧ (∀ p ∈ s1.runnable, ProcOK p) ∧ (∀ p ∈ s1.waiting, ProcOK p) ∧
    s1.done_processes = s.done_processes := by
  obtain ⟨hsr, hsw, hsd⟩ := hs
  rcases getNextQ_cases h with ⟨rs, hr, rfl, rfl⟩ | ⟨w, rest, rest2, hr, hw, hi, rfl, rfl⟩
  · refine ⟨hsr c (by rw [hr]; exact List.mem_cons_self _ _), ?_, hsw, rfl⟩
    intro p hp
    exact hsr p (by rw [hr]; exact List.mem_cons_of_mem _ hp)
  · have hwOK : ProcOK w := hsw w (by rw [hw]; exact List.mem_cons_self _ _)
    have hmem : ∀ p ∈ c :: rest2, ProcOK p := by
      intro p hp
      rw [← hi] at hp
      rcases hins.1 _ _ _ hp with hp1 | hp2
      · exact absurd hp1 (List.not_mem_nil p)
      · rw [hp2]
        exact procOK_arrival hwOK
    refine ⟨hmem c (List.mem_cons_self _ _), ?_, ?_, rfl⟩
    · intro p hp
      exact hmem p (List.mem_cons_of_mem _ hp)
    · intro p hp
      exact hsw p (by rw [hw]; exact List.mem_cons_of_mem _ hp)

theorem afterQueues_ok {ins : List Process → Process → List Process}
    (hins : InsOK ins) {d : Int} {s s1 : SchedState} {ev : List Ev}
    (hd : 0 ≤ d) (h : afterQueues ins d s = some (s1, ev))
    (hrun : ∀ p ∈ s.runnable, ProcOK p) (hwait : ∀ p ∈ s.waiting, ProcOK p) :
    (∀ p ∈ s1.runnable, ProcOK p) ∧ (∀ p ∈ s1.waiting, ProcOK p) ∧
    s1.done_processes = s.done_processes ∧ s1.time = s.time ∧
    s1.step_time_ran = s.step_time_ran := by
  rw [afterQueues_eq ins d s hd] at h
  simp only [Option.some.injEq, Prod.mk.injEq] at h
  obtain ⟨h1, h2⟩ := h
  subst h1
  refine ⟨?_, ?_, rfl, rfl, rfl⟩
  · intro p hp
    rcases mem_promoteAll hins.1 hp with hp1 | ⟨bp, hbp, rfl⟩
    · rcases List.mem_map.mp hp1 with ⟨q, hq, rfl⟩
      exact procOK_waitF (hrun q hq)
    · rcases List.mem_map.mp hbp with ⟨q, hq, rfl⟩
      exact procOK_arrF (hwait q hq)
  · intro p hp
    rcases mem_newWaiting hp with ⟨bp, hbp, rfl⟩
    rcases List.mem_map.mp hbp with ⟨q, hq, rfl⟩
    exact procOK_arrF (hwait q hq)

theorem noPreemptStep_ok {ins : List Process → Process → List Process}
    (hins : InsOK ins) {s s1 : SchedState} {ev : List Ev}
    (h : noPreemptStep ins s = some (s1, ev)) (hs : StateOK s) :
    StateOK s1 ∧ ∃ c1, s1.done_processes = s.done_processes ++ [c1] := by
  unfold noPreemptStep at h
  split at h
  · exact Option.noConfusion h
  rename_i c s2 ev0 hg
  split at h
  · exact Option.noConfusion h
  rename_i t lft c1 hrun
  split at h
  case isFalse => exact Option.noConfusion h
  case isTrue hl =>
  split at h
  · exact Option.noConfusion h
  rename_i s3 ev1 haq
  simp only [Option.some.injEq, Prod.mk.injEq] at h
  obtain ⟨h1, h2⟩ := h
  subst h1
  obtain ⟨hc, hr2, hw2, hd2⟩ := getNextQ_ok hins hg hs
  obtain ⟨hc1, ht, hex, hwt, hid, hfull, hdone⟩ := run_stateFacts hrun hc
  have hproc : c1.processed_time = c1.ex_time := hfull hl rfl
  obtain ⟨haqr, haqw, haqd, haqt, haqs⟩ := afterQueues_ok hins ht haq hr2 hw2
  refine ⟨⟨haqr, haqw, ?_⟩, ⟨c1, ?_⟩⟩
  · intro p hp
    rw [haqd] at hp
    simp only [List.mem_append, List.mem_singleton] at hp
    rcases hp with hp | rfl
    · rw [hd2] at hp
      exact hs.2.2 p hp
    · exact ⟨hc1, le_of_eq hproc.symm⟩
  · rw [haqd]
    simp only [hd2]

theorem preemptStep_ok {ins : List Process → Process → List Process}
    {grant : Process → List Process → Int}
    (hins : InsOK ins) {s s1 : SchedState} {ev : List Ev}
    (h : preemptStep ins grant s = some (s1, ev)) (hs : StateOK s) :
    StateOK s1 ∧ (s1.done_processes = s.done_processes ∨
      ∃ c1, s1.done_processes = s.done_processes ++ [c1]) := by
  unfold preemptStep at h
  split at h
  · exact Option.noConfusion h
  rename_i c s2 ev0 hg
  split at h
  · exact Option.noConfusion h
  rename_i t lft c1 hrun
  split at h
  · exact Option.noConfusion h
  rename_i s3 ev1 haq
  obtain ⟨hc, hr2, hw2, hd2⟩ := getNextQ_ok hins hg hs
  obtain ⟨hc1, ht, hex, hwt, hid, hfull, hdone⟩ := run_stateFacts hrun hc
  obtain ⟨haqr, haqw, haqd, haqt, haqs⟩ := afterQueues_ok hins ht haq hr2 hw2
  have hdold : ∀ p ∈ s3.done_processes, ProcOK p ∧ p.ex_time ≤ p.processed_time := by
    intro p hp
    rw [haqd, hd2] at hp
    exact hs.2.2 p hp
  split at h
  case isTrue hdn =>
    simp only [Option.some.injEq, Prod.mk.injEq] at h
    obtain ⟨h1, h2⟩ := h
    subst h1
    refine ⟨⟨haqr, haqw, ?_⟩, Or.inr ⟨c1, ?_⟩⟩
    · intro p hp
      simp only [List.mem_append, List.mem_singleton] at hp
      rcases hp with hp | rfl
      · exact hdold p hp
      · exact ⟨hc1, le_of_eq (hdone hdn).symm⟩
    · rw [haqd, hd2]
  case isFalse hdn =>
    simp only [Option.some.injEq, Prod.mk.injEq] at h
    obtain ⟨h1, h2⟩ := h
    subst h1
    refine ⟨⟨?_, haqw, hdold⟩, Or.inl (by rw [haqd, hd2])⟩
    intro p hp
    rcases hins.1 _ _ _ hp with hp1 | hp2
    · exact haqr p hp1
    · rw [hp2]
      exact hc1

theorem stepOf_ok {pol : Policy} {s s1 : SchedState} {ev : List Ev}
    (h : stepOf pol s = some (s1, ev)) (hs : StateOK s) :
    StateOK s1 ∧ (s1.done_processes = s.done_processes ∨
      ∃ c1, s1.done_processes = s.done_processes ++ [c1]) := by
  cases pol with
  | fifo =>
    obtain ⟨h1, c1, h2⟩ := noPreemptStep_ok insOK_appendIns h hs
    exact ⟨h1, Or.inr ⟨c1, h2⟩⟩
  | sjf =>
    obtain ⟨h1, c1, h2⟩ := noPreemptStep_ok insOK_insort h hs
    exact ⟨h1, Or.inr ⟨c1, h2⟩⟩
  | rr slice =>
    unfold stepOf rrStep at h
    exact preemptStep_ok insOK_appendIns h hs
  | srtf =>
    unfold stepOf srtfStep at h
    exact preemptStep_ok insOK_insort h hs

/-! ### The invariant along a run -/

theorem initState_ok {procs : List Process}
    (h : ∀ p ∈ procs, ProcOK p) : StateOK (initState procs) := by
  refine ⟨?_, ?_, ?_⟩
  · intro p hp
    exact h p (List.mem_of_mem_filter hp)
  · intro p hp
    exact h p (List.mem_of_mem_filter (mem_sortP.mp hp))
  · intro p hp
    exact absurd hp (List.not_mem_nil p)

theorem initSched_ok {pol : Policy} {procs : List Process}
    (h : ∀ p ∈ procs, ProcOK p) : StateOK (initSched pol procs) := by
  cases pol with
  | fifo => exact initState_ok h
  | rr slice => exact initState_ok h
  | sjf =>
    obtain ⟨h1, h2, h3⟩ := initState_ok h
    exact ⟨fun p hp => h1 p (mem_sortP.mp hp), h2, h3⟩
  | srtf =>
    obtain ⟨h1, h2, h3⟩ := initState_ok h
    exact ⟨fun p hp => h1 p (mem_sortP.mp hp), h2, h3⟩

theorem reach_ok {pol : Policy} {s0 s : SchedState}
    (h0 : StateOK s0) (hr : Reach pol s0 s) : StateOK s := by
  induction hr with
  | refl => exact h0
  | step hr hstep ih => exact (stepOf_ok hstep ih).1

/-! ### Claim C3 -/

/-- Claim C3: for every process p that has finished and is recorded in
`done_processes`, at every reachable point of any policy's run (from a
freshly constructed scheduler whose processes have non-negative
execution times), `completion_time = wait_time + processed_time` and
`processed_time = ex_time`; moreover no scheduler step mutates the done
record again — a step only appends to it. -/
theorem claim_C3 (pol : Policy) (procs : List Process) (s : SchedState)
    (hw : ∀ p ∈ procs, p.processed_time = 0 ∧ p.comp_time = 0 ∧
          p.wait_time = 0 ∧ 0 ≤ p.ex_time)
    (hr : Reach pol (initSched pol procs) s) :
    (∀ p ∈ s.done_processes,
        p.comp_time = p.wait_time + p.processed_time ∧
        p.processed_time = p.ex_time) ∧
    (∀ s1 ev, stepOf pol s = some (s1, ev) →
        ∃ l, s1.done_processes = s.done_processes ++ l) := by
  have h0 : StateOK (initSched pol procs) := by
    refine initSched_ok (fun p hp => ?_)
    obtain ⟨h1, h2, h3, h4⟩ := hw p hp
    exact ⟨by omega, by omega, by omega⟩
  have hs : StateOK s := reach_ok h0 hr
  constructor
  · intro p hp
    obtain ⟨⟨h1, h2, h3⟩, h4⟩ := hs.2.2 p hp
    exact ⟨h1, le_antisymm h3 h4⟩
  · intro s1 ev hstep
    rcases (stepOf_ok hstep hs).2 with hd | ⟨c1, hd⟩
    · exact ⟨[], by rw [hd, List.append_nil]⟩
    · exact ⟨[c1], hd⟩

/-- The one-process input used to witness claims about concrete runs. -/
def procA : Process := mkProcess "A" 2 0

/-- The `Process` record of `procA` after it has run to completion. -/
def procA1 : Process :=
  { id := "A", ex_time := 2, arrival_time := 0,
    processed_time := 2, comp_time := 2, wait_time := 0 }

/-- The state after one FIFO step on the input `[procA]`. -/
def c3state : SchedState :=
  { done_processes := [procA1], runnable := [], waiting := [],
    time := 2, step_time_ran := 2 }

def c3ev : List Ev := [Ev.ranQuantum 2, Ev.finish "A", Ev.clockAdv 2]

theorem claim_C3_witness :
    procA1.comp_time = procA1.wait_time + procA1.processed_time ∧
    procA1.processed_time = procA1.ex_time :=
  (claim_C3 Policy.fifo [procA] c3state (by decide)
    (@Reach.step Policy.fifo (initSched Policy.fifo [procA])
      (initSched Policy.fifo [procA]) c3state c3ev (Reach.refl _)
      (by decide))).1 procA1 (by decide)

/-! ### Forward equations for the step functions -/

theorem noPreemptStep_eq {ins : List Process → Process → List Process}
    {s : SchedState} {c : Process} {s2 : SchedState} {ev0 : List Ev}
    (hg : getNextQ ins s = some (c, s2, ev0)) {t lft : Int} {c1 : Process}
    (hrun : c.run c.ex_time = some (t, lft, c1)) (hl : lft = 0)
    {s3 : SchedState} {ev1 : List Ev}
    (haq : afterQueues ins t
        { s2 with done_processes := s2.done_processes ++ [c1]
                  step_time_ran := t
                  time := s2.time + t } = some (s3, ev1)) :
    noPreemptStep ins s =
      some (s3, ev0 ++ [Ev.ranQuantum t, Ev.finish c1.id, Ev.clockAdv t] ++ ev1) := by
  unfold noPreemptStep
  rw [hg]
  simp only [hrun, hl, if_pos]
  rw [haq]

theorem preemptStep_eq_done {ins : List Process → Process → List Process}
    {grant : Process → List Process → Int}
    {s : SchedState} {c : Process} {s2 : SchedState} {ev0 : List Ev}
    (hg : getNextQ ins s = some (c, s2, ev0)) {t lft : Int} {c1 : Process}
    (hrun : c.run (grant c s2.waiting) = some (t, lft, c1))
    {s3 : SchedState} {ev1 : List Ev}
    (haq : afterQueues ins t { s2 with step_time_ran := t } = some (s3, ev1))
    (hdn : c1.is_done = true) :
    preemptStep ins grant s =
      some ({ s3 with done_processes := s3.done_processes ++ [c1]
                      time := s3.time + t },
            ev0 ++ [Ev.ranQuantum t] ++ ev1 ++ [Ev.finish c1.id] ++ [Ev.clockAdv t]) := by
  unfold preemptStep
  rw [hg]
  simp only [hrun, hdn]
  rw [haq]
  simp

theorem preemptStep_eq_requeue {ins : List Process → Process → List Process}
    {grant : Process → List Process → Int}
    {s : SchedState} {c : Process} {s2 : SchedState} {ev0 : List Ev}
    (hg : getNextQ ins s = some (c, s2, ev0)) {t lft : Int} {c1 : Process}
    (hrun : c.run (grant c s2.waiting) = some (t, lft, c1))
    {s3 : SchedState} {ev1 : List Ev}
    (haq : afterQueues ins t { s2 with step_time_ran := t } = some (s3, ev1))
    (hdn : c1.is_done = false) :
    preemptStep ins grant s =
      some ({ s3 with runnable := ins s3.runnable c1
                      time := s3.time + t },
            ev0 ++ [Ev.ranQuantum t] ++ ev1 ++ [Ev.requeue c1.id] ++ [Ev.clockAdv t]) := by
  unfold preemptStep
  rw [hg]
  simp only [hrun, hdn]
  rw [haq]
  simp

/-! ### Freshness: FIFO and SJF never leave a partially run process queued -/

/-- A process that has never run and needs positive execution time. -/
def FreshP (p : Process) : Prop := p.processed_time = 0 ∧ 0 < p.ex_time

def FreshState (s : SchedState) : Prop :=
  (∀ p ∈ s.runnable, FreshP p) ∧ (∀ p ∈ s.waiting, FreshP p)

theorem freshP_arrival (p : Process) (v : Int) (hp : FreshP p) :
    FreshP { p with arrival_time := v } := hp

theorem freshP_waitF (d : Int) (p : Process) (hp : FreshP p) :
    FreshP (waitF d p) := hp

theorem freshP_arrF (d : Int) (p : Process) (hp : FreshP p) :
    FreshP (arrF d p).2 := hp

theorem getNextQ_pred {Q : Process → Prop}
    (hQ : ∀ (p : Process) (v : Int), Q p → Q { p with arrival_time := v })
    {ins : List Process → Process → List Process} (hins : InsOK ins)
    {s : SchedState} {c : Process} {s1 : SchedState} {ev : List Ev}
    (h : getNextQ ins s = some (c, s1, ev))
    (hr : ∀ p ∈ s.runnable, Q p) (hw : ∀ p ∈ s.waiting, Q p) :
    Q c ∧ (∀ p ∈ s1.runnable, Q p) ∧ (∀ p ∈ s1.waiting, Q p) ∧
    s1.done_processes = s.done_processes := by
  rcases getNextQ_cases h with ⟨rs, hrr, rfl, rfl⟩ | ⟨w, rest, rest2, hrr, hww, hi, rfl, rfl⟩
  · refine ⟨hr c (by rw [hrr]; exact List.mem_cons_self _ _), ?_, hw, rfl⟩
    intro p hp
    exact hr p (by rw [hrr]; exact List.mem_cons_of_mem _ hp)
  · have hwQ : Q w := hw w (by rw [hww]; exact List.mem_cons_self _ _)
    have hmem : ∀ p ∈ c :: rest2, Q p := by
      intro p hp
      rw [← hi] at hp
      rcases hins.1 _ _ _ hp with hp1 | hp2
      · exact absurd hp1 (List.not_mem_nil p)
      · rw [hp2]
        exact hQ w 0 hwQ
    refine ⟨hmem c (List.mem_cons_self _ _), ?_, ?_, rfl⟩
    · intro p hp
      exact hmem p (List.mem_cons_of_mem _ hp)
    · intro p hp
      exact hw p (by rw [hww]; exact List.mem_cons_of_mem _ hp)

theorem afterQueues_pred {Q : Process → Prop}
    (hQw : ∀ (d : Int) (p : Process), Q p → Q (waitF d p))
    (hQa : ∀ (d : Int) (p : Process), Q p → Q (arrF d p).2)
    {ins : List Process → Process → List Process} (hins : InsOK ins)
    {d : Int} {s s1 : SchedState} {ev : List Ev} (hd : 0 ≤ d)
    (h : afterQueues ins d s = some (s1, ev))
    (hrun : ∀ p ∈ s.runnable, Q p) (hwait : ∀ p ∈ s.waiting, Q p) :
    (∀ p ∈ s1.runnable, Q p) ∧ (∀ p ∈ s1.waiting, Q p) := by
  rw [afterQueues_eq ins d s hd] at h
  simp only [Option.some.injEq, Prod.mk.injEq] at h
  obtain ⟨h1, h2⟩ := h
  subst h1
  constructor
  · intro p hp
    rcases mem_promoteAll hins.1 hp with hp1 | ⟨bp, hbp, rfl⟩
    · rcases List.mem_map.mp hp1 with ⟨q, hq, rfl⟩
      exact hQw d q (hrun q hq)
    · rcases List.mem_map.mp hbp with ⟨q, hq, rfl⟩
      exact hQa d q (hwait q hq)
  · intro p hp
    rcases mem_newWaiting hp with ⟨bp, hbp, rfl⟩
    rcases List.mem_map.mp hbp with ⟨q, hq, rfl⟩
    exact hQa d q (hwait q hq)

theorem getNextQ_success {ins : List Process → Process → List Process}
    (hins : InsOK ins) {s : SchedState} (hnd : s.isDone = false) :
    ∃ c s2 ev0, getNextQ ins s = some (c, s2, ev0) := by
  cases hr : s.runnable with
  | cons a rs => exact ⟨a, _, _, getNextQ_eq_pop ins hr⟩
  | nil =>
    cases hw : s.waiting with
    | nil =>
      exfalso
      unfold SchedState.isDone at hnd
      rw [hr, hw] at hnd
      simp at hnd
    | cons w rest =>
      cases hi : ins [] { w with arrival_time := 0 } with
      | nil => exact absurd hi (hins.2 _)
      | cons c0 rest2 => exact ⟨c0, _, _, getNextQ_eq_stall ins hr hw hi⟩

/-- On a state whose queued processes are all fresh with positive
execution time, a FIFO/SJF step always succeeds: it runs the selected
process for its full `ex_time` (the `leftover == 0` assertion holds),
appends it to `done_processes`, and the resulting queues are fresh
again. -/
theorem noPreemptStep_fresh {ins : List Process → Process → List Process}
    (hins : InsOK ins) {s : SchedState}
    (hf : FreshState s) (hnd : s.isDone = false) :
    ∃ s1 ev c1, noPreemptStep ins s = some (s1, ev) ∧
      FreshState s1 ∧
      s1.done_processes = s.done_processes ++ [c1] ∧
      c1.processed_time = c1.ex_time ∧
      s1.step_time_ran = c1.ex_time := by
  obtain ⟨c, s2, ev0, hg⟩ := getNextQ_success hins hnd
  obtain ⟨hcQ, hr2, hw2, hd2⟩ := getNextQ_pred freshP_arrival hins hg hf.1 hf.2
  obtain ⟨hc0, hcex⟩ := hcQ
  have htl : c.time_left = c.ex_time := by
    unfold Process.time_left
    omega
  have hrun : c.run c.ex_time =
      some (c.ex_time, 0,
        { c with processed_time := c.processed_time + c.ex_time,
                 comp_time := c.comp_time + c.ex_time }) := by
    rw [Process.run_eq c c.ex_time hcex, htl, min_self, sub_self]
  have hdle : (0 : Int) ≤ c.ex_time := le_of_lt hcex
  have haq := afterQueues_eq ins c.ex_time
    { s2 with done_processes := s2.done_processes ++
        [{ c with processed_time := c.processed_time + c.ex_time,
                  comp_time := c.comp_time + c.ex_time }]
              step_time_ran := c.ex_time
              time := s2.time + c.ex_time } hdle
  have hstep := noPreemptStep_eq hg hrun rfl haq
  refine ⟨_, _, ?_, hstep, ?_, ?_, ?_, ?_⟩
  case _ => exact { c with processed_time := c.processed_time + c.ex_time
                           comp_time := c.comp_time + c.ex_time }
  · exact afterQueues_pred freshP_waitF freshP_arrF hins hdle haq hr2 hw2
  · dsimp only
    rw [hd2]
  · dsimp only
    omega
  · dsimp only

theorem noPreemptStep_isDone {ins : List Process → Process → List Process}
    {s : SchedState} {x : SchedState × List Ev}
    (h : noPreemptStep ins s = some x) : s.isDone = false := by
  cases hd : s.isDone with
  | false => rfl
  | true =>
    exfalso
    unfold SchedState.isDone at hd
    rw [Bool.and_eq_true, List.isEmpty_iff, List.isEmpty_iff] at hd
    unfold noPreemptStep at h
    rw [getNextQ_eq_none ins hd.1 hd.2] at h
    exact Option.noConfusion h

theorem noPreemptStep_freshPres {ins : List Process → Process → List Process}
    (hins : InsOK ins) {s s1 : SchedState} {ev : List Ev}
    (h : noPreemptStep ins s = some (s1, ev)) (hf : FreshState s) :
    FreshState s1 := by
  obtain ⟨s1', ev', c1', hstep, hfr, h3, h4, h5⟩ :=
    noPreemptStep_fresh hins hf (noPreemptStep_isDone h)
  rw [h] at hstep
  simp only [Option.some.injEq, Prod.mk.injEq] at hstep
  obtain ⟨h6, h7⟩ := hstep
  rw [h6]
  exact hfr

theorem reach_fresh_np {pol : Policy} {ins : List Process → Process → List Process}
    (hins : InsOK ins) (hstepOf : ∀ s, stepOf pol s = noPreemptStep ins s)
    {s0 s : SchedState} (h0 : FreshState s0) (hr : Reach pol s0 s) :
    FreshState s := by
  induction hr with
  | refl => exact h0
  | step hr hstep ih =>
    rw [hstepOf] at hstep
    exact noPreemptStep_freshPres hins hstep ih

/-! ### Claim C7 -/

/-- Claim C7: in every run of a FIFO or SJF scheduler from a freshly
constructed instance (processes unprocessed, positive execution times),
every queued process still has `processed_time = 0`, so whenever the
scheduler is not done the step succeeds — the selected process runs for
its full `ex_time` (so the `leftover == 0` assertion cannot fire), is
appended to `done_processes` fully processed, and never re-enters the
queues. -/
theorem claim_C7 (pol : Policy) (procs : List Process) (s : SchedState)
    (hpol : pol = Policy.fifo ∨ pol = Policy.sjf)
    (hw : ∀ p ∈ procs, p.processed_time = 0 ∧ 0 < p.ex_time)
    (hr : Reach pol (initSched pol procs) s) :
    (∀ p ∈ s.runnable, p.processed_time = 0) ∧
    (∀ p ∈ s.waiting, p.processed_time = 0) ∧
    (s.isDone = false →
      ∃ s1 ev c1, stepOf pol s = some (s1, ev) ∧
        s1.done_processes = s.done_processes ++ [c1] ∧
        c1.processed_time = c1.ex_time ∧
        s1.step_time_ran = c1.ex_time) := by
  rcases hpol with rfl | rfl
  · have h0 : FreshState (initSched Policy.fifo procs) := by
      constructor
      · intro p hp
        exact hw p (List.mem_of_mem_filter hp)
      · intro p hp
        exact hw p (List.mem_of_mem_filter (mem_sortP.mp hp))
    have hf : FreshState s :=
      @reach_fresh_np Policy.fifo appendIns insOK_appendIns (fun s => rfl) _ _ h0 hr
    refine ⟨fun p hp => (hf.1 p hp).1, fun p hp => (hf.2 p hp).1, fun hnd => ?_⟩
    obtain ⟨s1, ev, c1, hstep, hfr, hdn, hproc, hstr⟩ :=
      noPreemptStep_fresh insOK_appendIns hf hnd
    exact ⟨s1, ev, c1, hstep, hdn, hproc, hstr⟩
  · have h0 : FreshState (initSched Policy.sjf procs) := by
      constructor
      · intro p hp
        exact hw p (List.mem_of_mem_filter (mem_sortP.mp hp))
      · intro p hp
        exact hw p (List.mem_of_mem_filter (mem_sortP.mp hp))
    have hf : FreshState s :=
      @reach_fresh_np Policy.sjf insort insOK_insort (fun s => rfl) _ _ h0 hr
    refine ⟨fun p hp => (hf.1 p hp).1, fun p hp => (hf.2 p hp).1, fun hnd => ?_⟩
    obtain ⟨s1, ev, c1, hstep, hfr, hdn, hproc, hstr⟩ :=
      noPreemptStep_fresh insOK_insort hf hnd
    exact ⟨s1, ev, c1, hstep, hdn, hproc, hstr⟩

theorem claim_C7_witness : procA.processed_time = 0 :=
  (claim_C7 Policy.fifo [procA] (initSched Policy.fifo [procA]) (Or.inl rfl)
    (by decide) (Reach.refl _)).1 procA (by decide)

/-! ### Claim C2 -/

/-- Claim C2: on the input `P1:5:0, P2:3:0, P3:8:0`, FIFO completes the
processes in order P1, P2, P3 with completion times 5, 8, 16 and wait
times 0, 5, 8 (averages 29/3 and 13/3), while SJF runs them in order
P2, P1, P3 with completion times 3, 8, 16 and wait times 0, 3, 8
(averages 9 and 11/3). -/
theorem claim_C2 :
    (runSched Policy.fifo 5 (initSched Policy.fifo
        [mkProcess "P1" 5 0, mkProcess "P2" 3 0, mkProcess "P3" 8 0])).map
      (fun r => (r.1.done_processes.map (fun p => p.id),
                 r.1.done_processes.map (fun p => p.comp_time),
                 r.1.done_processes.map (fun p => p.wait_time),
                 r.2)) =
      some (["P1", "P2", "P3"], [5, 8, 16], [0, 5, 8],
            RunOutcome.ok { tot_comp := 29, tot_wait := 13,
                            num_processes_ran := 3 }) ∧
    Stats.avg_comp_time { tot_comp := 29, tot_wait := 13, num_processes_ran := 3 }
      = 29 / 3 ∧
    Stats.avg_wait_time { tot_comp := 29, tot_wait := 13, num_processes_ran := 3 }
      = 13 / 3 ∧
    (runSched Policy.sjf 5 (initSched Policy.sjf
        [mkProcess "P1" 5 0, mkProcess "P2" 3 0, mkProcess "P3" 8 0])).map
      (fun r => (r.1.done_processes.map (fun p => p.id),
                 r.1.done_processes.map (fun p => p.comp_time),
                 r.1.done_processes.map (fun p => p.wait_time),
                 r.2)) =
      some (["P2", "P1", "P3"], [3, 8, 16], [0, 3, 8],
            RunOutcome.ok { tot_comp := 27, tot_wait := 11,
                            num_processes_ran := 3 }) ∧
    Stats.avg_comp_time { tot_comp := 27, tot_wait := 11, num_processes_ran := 3 }
      = 9 ∧
    Stats.avg_wait_time { tot_comp := 27, tot_wait := 11, num_processes_ran := 3 }
      = 11 / 3 := by
  refine ⟨by decide, by norm_num [Stats.avg_comp_time], by norm_num [Stats.avg_wait_time],
          by decide, by norm_num [Stats.avg_comp_time], by norm_num [Stats.avg_wait_time]⟩

/-! ### Claim C5 -/

/-- Claim C5: for a non-negative duration, `wait_arrival` decreases
`arrival_time` by `min(arrival_time, d)`, passes the remaining
duration to `wait` (adding it to `wait_time` and `comp_time`), and
returns true exactly when `arrival_time` is 0 afterwards; for a
negative duration `wait`, and hence `wait_arrival`, fail. -/
theorem claim_C5 (p : Process) (d : Int) :
    (0 ≤ d →
      p.wait_arrival d =
        some (decide (p.arrival_time - min p.arrival_time d = 0),
          { p with arrival_time := p.arrival_time - min p.arrival_time d,
                   wait_time := p.wait_time + (d - min p.arrival_time d),
                   comp_time := p.comp_time + (d - min p.arrival_time d) }) ∧
      (decide (p.arrival_time - min p.arrival_time d = 0) = true ↔
        p.arrival_time - min p.arrival_time d = 0)) ∧
    (d < 0 → p.wait d = none ∧ p.wait_arrival d = none) := by
  constructor
  · intro hd
    exact ⟨Process.wait_arrival_eq p d hd, by simp⟩
  · intro hd
    exact ⟨Process.wait_neg p d hd, Process.wait_arrival_neg p d hd⟩

def procW : Process := mkProcess "W" 5 3

theorem claim_C5_witness :
    procW.wait_arrival 2 =
      some (false, { procW with arrival_time := 1, wait_time := 0, comp_time := 0 }) ∧
    procW.wait (-1) = none ∧ procW.wait_arrival (-1) = none := by
  refine ⟨?_, ((claim_C5 procW (-1)).2 (by decide)).1,
          ((claim_C5 procW (-1)).2 (by decide)).2⟩
  have h := ((claim_C5 procW 2).1 (by decide)).1
  rw [h]
  decide

/-! ### Claim C6 -/

/-- Claim C6: when `get_next_process` runs with `runnable` empty and
`waiting` non-empty, it removes the head (the earliest-arriving process,
`waiting` being sorted), advances the clock by exactly that process's
remaining `arrival_time`, zeroes its `arrival_time` and inserts it via
the policy's insertion rule, without touching its `wait_time`; a lone
process with `arrival_time = 10` and `ex_time = 4` finishes with
`wait_time` 0 after such a stall (final clock 14). -/
theorem claim_C6 :
    (∀ (ins : List Process → Process → List Process) (s : SchedState)
       (w : Process) (rest : List Process),
       s.runnable = [] → s.waiting = w :: rest → SortedP s.waiting →
       stallQ ins s =
         ({ s with waiting := rest, time := s.time + w.arrival_time,
                   runnable := ins [] { w with arrival_time := 0 } },
          [Ev.stallAdv w.arrival_time]) ∧
       ({ w with arrival_time := 0 } : Process).wait_time = w.wait_time ∧
       ({ w with arrival_time := 0 } : Process).arrival_time = 0 ∧
       (∀ p ∈ rest, w.arrival_time ≤ p.arrival_time)) ∧
    (runSched Policy.fifo 3 (initSched Policy.fifo [mkProcess "P1" 4 10])).map
        (fun r => (r.1.done_processes.map (fun p => p.wait_time), r.1.time, r.2)) =
      some ([0], 14,
        RunOutcome.ok { tot_comp := 4, tot_wait := 0, num_processes_ran := 1 }) := by
  constructor
  · intro ins s w rest h1 h2 hsort
    refine ⟨stallQ_eq_pos ins h1 h2, rfl, rfl, ?_⟩
    intro p hp
    rw [h2] at hsort
    have h3 := (List.pairwise_cons.mp hsort).1 p hp
    unfold Process.ltP at h3
    split_ifs at h3 <;> simp_all <;> omega
  · decide

def c6s : SchedState :=
  { done_processes := [], runnable := [],
    waiting := [mkProcess "W" 3 2, mkProcess "R" 1 5],
    time := 0, step_time_ran := 0 }

theorem claim_C6_witness :
    stallQ appendIns c6s =
      ({ c6s with waiting := [mkProcess "R" 1 5], time := c6s.time + 2,
                  runnable := appendIns [] { mkProcess "W" 3 2 with arrival_time := 0 } },
       [Ev.stallAdv 2]) :=
  (claim_C6.1 appendIns c6s (mkProcess "W" 3 2) [mkProcess "R" 1 5] rfl rfl
    (by unfold SortedP; decide)).1

/-! ### Claim C9 -/

/-- Claim C9: a stall leaves the `arrival_time` (indeed the whole
record) of every other waiting process unchanged even though the clock
advances by the stall amount; waiting processes are only ever aged by
the per-step quanta, through `wait_arrival`, which decreases each
arrival time by `min(arrival_time, quantum)`. -/
theorem claim_C9 (ins : List Process → Process → List Process) (s : SchedState)
    (w : Process) (rest : List Process)
    (h1 : s.runnable = []) (h2 : s.waiting = w :: rest) :
    (stallQ ins s).1.waiting = rest ∧
    (stallQ ins s).1.time = s.time + w.arrival_time ∧
    (∀ d res, 0 ≤ d → arriveAll d rest = some res →
       List.Forall₂
         (fun p bq => (bq : Bool × Process).2.arrival_time =
              p.arrival_time - min p.arrival_time d ∧
            (bq : Bool × Process).2.ex_time = p.ex_time ∧
            (bq : Bool × Process).2.processed_time = p.processed_time)
         rest res) := by
  rw [stallQ_eq_pos ins h1 h2]
  refine ⟨rfl, rfl, ?_⟩
  intro d res hd hres
  rw [arriveAll_eq d hd] at hres
  injection hres with h3
  subst h3
  rw [List.forall₂_map_right_iff]
  rw [List.forall₂_same]
  intro x hx
  exact ⟨rfl, rfl, rfl⟩

theorem claim_C9_witness :
    (stallQ appendIns c6s).1.waiting = [mkProcess "R" 1 5] ∧
    (stallQ appendIns c6s).1.time = c6s.time + 2 :=
  ⟨(claim_C9 appendIns c6s (mkProcess "W" 3 2) [mkProcess "R" 1 5] rfl rfl).1,
   (claim_C9 appendIns c6s (mkProcess "W" 3 2) [mkProcess "R" 1 5] rfl rfl).2.1⟩

/-! ### Claim C10 -/

/-- Claim C10: in a Round-Robin step whose selected process is not done
after its quantum, the new runnable queue is the accrued former tail,
then the processes promoted during the quantum, then the preempted
process — so arrivals during the quantum are scheduled ahead of the
preempted process — and the preempted process accrues no wait time in
that step. -/
theorem claim_C10 (slice : Int) (s : SchedState) (c : Process)
    (rs : List Process) (s1 : SchedState) (ev : List Ev)
    (t lft : Int) (c1 : Process)
    (hr : s.runnable = c :: rs)
    (hrun : c.run slice = some (t, lft, c1))
    (hdn : c1.is_done = false)
    (hstep : stepOf (Policy.rr slice) s = some (s1, ev)) :
    0 ≤ t ∧
    s1.runnable = rs.map (waitF t) ++
      ((s.waiting.map (arrF t)).filter (fun bp => bp.1)).map Prod.snd ++ [c1] ∧
    c1.wait_time = c.wait_time := by
  obtain ⟨ht, hl, hc1⟩ := Process.run_inv hrun
  have hd0 : 0 < slice := Process.run_pos hrun
  have hdn2 : c1.processed_time < c1.ex_time := by
    unfold Process.is_done at hdn
    simp only [decide_eq_false_iff_not] at hdn
    omega
  have htn : 0 ≤ t := by
    rw [hc1] at hdn2
    dsimp only at hdn2
    unfold Process.time_left at ht
    omega
  have hg := getNextQ_eq_pop appendIns hr
  have haq := afterQueues_eq appendIns t
    { s with runnable := rs, step_time_ran := t } htn
  have hstep2 : preemptStep appendIns (fun _ _ => slice) s = some (s1, ev) := hstep
  rw [preemptStep_eq_requeue hg hrun haq hdn] at hstep2
  simp only [Option.some.injEq, Prod.mk.injEq] at hstep2
  obtain ⟨h5, h6⟩ := hstep2
  refine ⟨htn, ?_, ?_⟩
  · rw [← h5]
    dsimp only
    rw [promoteAll_append_eq]
    simp [appendIns, List.append_assoc]
  · rw [hc1]

def c10s0 : SchedState := initSched (Policy.rr 2) [mkProcess "C" 5 0, mkProcess "W" 1 1]

def c10c1 : Process :=
  { id := "C", ex_time := 5, arrival_time := 0,
    processed_time := 2, comp_time := 2, wait_time := 0 }

def c10s1 : SchedState :=
  { done_processes := [],
    runnable := [{ id := "W", ex_time := 1, arrival_time := 0,
                   processed_time := 0, comp_time := 1, wait_time := 1 }, c10c1],
    waiting := [], time := 2, step_time_ran := 2 }

def c10ev : List Ev :=
  [Ev.ranQuantum 2, Ev.promote "W", Ev.requeue "C", Ev.clockAdv 2]

theorem claim_C10_witness :
    (0 : Int) ≤ 2 ∧
    c10s1.runnable = ([] : List Process).map (waitF 2) ++
      ((c10s0.waiting.map (arrF 2)).filter (fun bp => bp.1)).map Prod.snd ++ [c10c1] ∧
    c10c1.wait_time = (mkProcess "C" 5 0).wait_time :=
  claim_C10 2 c10s0 (mkProcess "C" 5 0) [] c10s1 c10ev 2 0 c10c1
    (by decide) (by decide) (by decide) (by decide)

/-! ### Claim C1 -/

theorem preemptStep_none_run {ins : List Process → Process → List Process}
    {grant : Process → List Process → Int}
    {s : SchedState} {c : Process} {s2 : SchedState} {ev0 : List Ev}
    (hg : getNextQ ins s = some (c, s2, ev0))
    (hrun : c.run (grant c s2.waiting) = none) :
    preemptStep ins grant s = none := by
  unfold preemptStep
  rw [hg]
  simp only [hrun]

/-- The input refuting claim C1 as stated: the selected process has
`time_left = 5`, the earliest waiting process arrives in 2 but needs 10
more units. -/
def c1cex : SchedState := initSched Policy.srtf [mkProcess "C" 5 0, mkProcess "W" 10 2]

/-- Claim C1 fails as stated: on `c1cex` the selected process's
`time_left` (5) exceeds the earliest waiting process's `arrival_time`
(2), so the claim predicts the clipped quantum 2, yet the SRTF step
grants the full 5 — the code clips only when `time_left` exceeds
`arrival_time + time_left` of the earliest waiting process. -/
theorem claim_C1_cex :
    (stepOf Policy.srtf c1cex).map (fun r => r.1.step_time_ran) = some 5 ∧
    (mkProcess "C" 5 0).time_left = 5 ∧
    (mkProcess "W" 10 2).arrival_time = 2 ∧
    (if (2 : Int) < 5 then (2 : Int) else 5) = 2 ∧
    ¬ ((5 : Int) = 2) :=
  ⟨by decide, by decide, by decide, by decide, by decide⟩

/-- Claim C1 (amended): for every SRTF step selecting the head `c` of a
non-empty runnable queue with waiting head `w` (of non-negative
remaining time), the quantum is `c.time_left`, clipped to
`w.arrival_time` exactly when `c.time_left` exceeds
`w.arrival_time + w.time_left` (when the current process would finish
after the arriving one could); the process is preempted at the clip
point and, if not done, reinserted into `runnable`, which stays in
ascending (arrival_time, ex_time) order. -/
theorem claim_C1 (s : SchedState) (c : Process) (rs : List Process)
    (w : Process) (ws : List Process) (s1 : SchedState) (ev : List Ev)
    (hr : s.runnable = c :: rs) (hw : s.waiting = w :: ws)
    (hwtl : 0 ≤ w.time_left)
    (hstep : stepOf Policy.srtf s = some (s1, ev)) :
    s1.step_time_ran =
      (if w.arrival_time + w.time_left < c.time_left then w.arrival_time
       else c.time_left) ∧
    (∀ t2 lft2 c2, c.run (srtfGrant c s.waiting) = some (t2, lft2, c2) →
       (c2.is_done = false → c2 ∈ s1.runnable) ∧
       (c2.is_done = true → s1.done_processes = s.done_processes ++ [c2])) ∧
    (SortedP s.runnable → SortedP s1.runnable) := by
  have hstep2 : preemptStep insort srtfGrant s = some (s1, ev) := hstep
  have hgr : srtfGrant c s.waiting =
      (if w.arrival_time + w.time_left < c.time_left then w.arrival_time
       else c.time_left) := by
    rw [hw]
    rfl
  cases hrun : c.run (srtfGrant c s.waiting) with
  | none =>
    exfalso
    have hrun2 : c.run (srtfGrant c ({ s with runnable := rs } : SchedState).waiting)
        = none := hrun
    rw [preemptStep_none_run (getNextQ_eq_pop insort hr) hrun2] at hstep2
    exact Option.noConfusion hstep2
  | some y =>
    obtain ⟨t, lft, c1⟩ := y
    obtain ⟨ht, hl, hc1⟩ := Process.run_inv hrun
    have hgpos : 0 < srtfGrant c s.waiting := Process.run_pos hrun
    have htg : t = srtfGrant c s.waiting := by
      rw [hgr] at ht hgpos
      rw [hgr]
      by_cases hclip : w.arrival_time + w.time_left < c.time_left
      · rw [if_pos hclip] at ht hgpos ⊢
        omega
      · rw [if_neg hclip] at ht hgpos ⊢
        omega
    have htn : 0 ≤ t := by omega
    have hg := getNextQ_eq_pop insort hr
    have haq := afterQueues_eq insort t { s with runnable := rs, step_time_ran := t } htn
    have hrun2 : c.run (srtfGrant c ({ s with runnable := rs } : SchedState).waiting)
        = some (t, lft, c1) := hrun
    cases hdn : c1.is_done with
    | true =>
      rw [preemptStep_eq_done hg hrun2 haq hdn] at hstep2
      simp only [Option.some.injEq, Prod.mk.injEq] at hstep2
      obtain ⟨h5, h6⟩ := hstep2
      refine ⟨?_, ?_, ?_⟩
      · rw [← h5]
        dsimp only
        rw [htg, hgr]
      · intro t2 lft2 c2 hrun3
        simp only [Option.some.injEq, Prod.mk.injEq] at hrun3
        obtain ⟨rfl, rfl, rfl⟩ := hrun3
        constructor
        · intro hfalse
          rw [hfalse] at hdn
          exact Bool.noConfusion hdn
        · intro _
          rw [← h5]
      · intro hsort
        rw [← h5]
        dsimp only
        apply sorted_promoteAll
        apply sortedP_map_waitF
        rw [hr] at hsort
        exact (List.pairwise_cons.mp hsort).2
    | false =>
      rw [preemptStep_eq_requeue hg hrun2 haq hdn] at hstep2
      simp only [Option.some.injEq, Prod.mk.injEq] at hstep2
      obtain ⟨h5, h6⟩ := hstep2
      refine ⟨?_, ?_, ?_⟩
      · rw [← h5]
        dsimp only
        rw [htg, hgr]
      · intro t2 lft2 c2 hrun3
        simp only [Option.some.injEq, Prod.mk.injEq] at hrun3
        obtain ⟨rfl, rfl, rfl⟩ := hrun3
        constructor
        · intro _
          rw [← h5]
          dsimp only
          exact mem_insort.mpr (Or.inr rfl)
        · intro htrue
          rw [htrue] at hdn
          exact Bool.noConfusion hdn
      · intro hsort
        rw [← h5]
        dsimp only
        apply sorted_insort
        apply sorted_promoteAll
        apply sortedP_map_waitF
        rw [hr] at hsort
        exact (List.pairwise_cons.mp hsort).2

def c1s0 : SchedState := initSched Policy.srtf [mkProcess "C" 10 0, mkProcess "W" 3 2]

def c1s1 : SchedState :=
  { done_processes := [],
    runnable := [{ id := "W", ex_time := 3, arrival_time := 0,
                   processed_time := 0, comp_time := 0, wait_time := 0 },
                 { id := "C", ex_time := 10, arrival_time := 0,
                   processed_time := 2, comp_time := 2, wait_time := 0 }],
    waiting := [], time := 2, step_time_ran := 2 }

def c1ev : List Ev :=
  [Ev.ranQuantum 2, Ev.promote "W", Ev.requeue "C", Ev.clockAdv 2]

theorem claim_C1_witness :
    c1s1.step_time_ran =
      (if (mkProcess "W" 3 2).arrival_time + (mkProcess "W" 3 2).time_left <
          (mkProcess "C" 10 0).time_left then (mkProcess "W" 3 2).arrival_time
       else (mkProcess "C" 10 0).time_left) :=
  (claim_C1 c1s0 (mkProcess "C" 10 0) [] (mkProcess "W" 3 2) [] c1s1 c1ev
    (by decide) (by decide) (by decide) (by decide)).1

/-! ### Claim C4: ordering of effects inside one step -/

def Ev.isAccrualEv : Ev → Bool
  | Ev.accrue _ _ => true
  | Ev.promote _ => true
  | _ => false

def Ev.isQuantumEv : Ev → Bool
  | Ev.ranQuantum _ => true
  | _ => false

def Ev.isClockEv : Ev → Bool
  | Ev.clockAdv _ => true
  | _ => false

/-- `noneAfter bad tag tr`: no `bad` event occurs after any `tag` event
of the trace. -/
def noneAfter (bad tag : Ev → Bool) : List Ev → Bool
  | [] => true
  | e :: rest => ((!tag e) || rest.all (fun x => !bad x)) && noneAfter bad tag rest

theorem noneAfter_of_noTag {bad tag : Ev → Bool} {l : List Ev}
    (h : l.all (fun x => !tag x) = true) : noneAfter bad tag l = true := by
  induction l with
  | nil => rfl
  | cons e rest ih =>
    rw [List.all_cons, Bool.and_eq_true] at h
    unfold noneAfter
    rw [Bool.and_eq_true, Bool.or_eq_true]
    exact ⟨Or.inl h.1, ih h.2⟩

theorem noneAfter_append {bad tag : Ev → Bool} {l1 l2 : List Ev}
    (h1 : noneAfter bad tag l1 = true)
    (h2 : l2.all (fun x => !bad x) = true) :
    noneAfter bad tag (l1 ++ l2) = true := by
  induction l1 with
  | nil =>
    rw [List.nil_append]
    induction l2 with
    | nil => rfl
    | cons e rest ih =>
      rw [List.all_cons, Bool.and_eq_true] at h2
      unfold noneAfter
      rw [Bool.and_eq_true, Bool.or_eq_true]
      exact ⟨Or.inr (List.all_eq_true.mpr fun x hx =>
        List.all_eq_true.mp h2.2 x hx), ih h2.2⟩
  | cons e rest ih =>
    unfold noneAfter at h1 ⊢
    rw [Bool.and_eq_true, Bool.or_eq_true] at h1
    rw [List.cons_append, Bool.and_eq_true, Bool.or_eq_true]
    constructor
    · rcases h1.1 with he | hrest
      · exact Or.inl he
      · refine Or.inr ?_
        rw [List.all_append, Bool.and_eq_true]
        exact ⟨hrest, h2⟩
    · exact ih h1.2

theorem accrueEvents_all {p : Ev → Bool} (hp : ∀ i d2, p (Ev.accrue i d2) = true)
    (d : Int) (r : List Process) : (accrueEvents d r).all p = true := by
  unfold accrueEvents
  rw [List.all_eq_true]
  intro x hx
  rcases List.mem_map.mp hx with ⟨q, hq, rfl⟩
  exact hp q.id d

theorem promoteEvents_all {p : Ev → Bool} (hp : ∀ i, p (Ev.promote i) = true)
    (res : List (Bool × Process)) : (promoteEvents res).all p = true := by
  unfold promoteEvents
  rw [List.all_eq_true]
  intro x hx
  rcases List.mem_map.mp hx with ⟨q, hq, rfl⟩
  exact hp q.2.id

theorem afterQueues_inv {ins : List Process → Process → List Process}
    {d : Int} {s s3 : SchedState} {ev1 : List Ev}
    (h : afterQueues ins d s = some (s3, ev1)) :
    ∃ res, arriveAll d s.waiting = some res ∧
      ev1 = accrueEvents d s.runnable ++ promoteEvents res := by
  unfold afterQueues at h
  cases hwa : waitAll d s.runnable with
  | none =>
    rw [hwa] at h
    exact Option.noConfusion h
  | some r =>
    cases haa : arriveAll d s.waiting with
    | none =>
      rw [hwa, haa] at h
      exact Option.noConfusion h
    | some res =>
      rw [hwa, haa] at h
      simp only [Option.some.injEq, Prod.mk.injEq] at h
      exact ⟨res, rfl, h.2.symm⟩

theorem noPreemptStep_evSplit {ins : List Process → Process → List Process}
    {s s1 : SchedState} {ev : List Ev}
    (h : noPreemptStep ins s = some (s1, ev)) :
    ∃ l1 l2, ev = l1 ++ l2 ∧
      l1.all (fun x => !x.isAccrualEv) = true ∧
      l2.all (fun x => !x.isQuantumEv) = true ∧
      l2.all (fun x => !x.isClockEv) = true := by
  unfold noPreemptStep at h
  split at h
  · exact Option.noConfusion h
  rename_i c s2 ev0 hg
  split at h
  · exact Option.noConfusion h
  rename_i t lft c1 hrun
  split at h
  case isFalse => exact Option.noConfusion h
  case isTrue hl =>
  split at h
  · exact Option.noConfusion h
  rename_i s3 ev1 haq
  simp only [Option.some.injEq, Prod.mk.injEq] at h
  obtain ⟨h1, h2⟩ := h
  obtain ⟨res, hres, hev1⟩ := afterQueues_inv haq
  have hev0 : ev0 = [] ∨ ∃ a, ev0 = [Ev.stallAdv a] := by
    rcases getNextQ_cases hg with ⟨rs, _, _, he⟩ | ⟨w, rest, rest2, _, _, _, _, he⟩
    · exact Or.inl he
    · exact Or.inr ⟨w.arrival_time, he⟩
  refine ⟨ev0 ++ [Ev.ranQuantum t, Ev.finish c1.id, Ev.clockAdv t], ev1, ?_, ?_, ?_, ?_⟩
  · exact h2.symm
  · rw [List.all_append, Bool.and_eq_true]
    refine ⟨?_, by rfl⟩
    rcases hev0 with rfl | ⟨a, rfl⟩ <;> rfl
  · rw [hev1, List.all_append, Bool.and_eq_true]
    exact ⟨accrueEvents_all (fun i d2 => rfl) t s2.runnable,
           promoteEvents_all (fun i => rfl) res⟩
  · rw [hev1, List.all_append, Bool.and_eq_true]
    exact ⟨accrueEvents_all (fun i d2 => rfl) t s2.runnable,
           promoteEvents_all (fun i => rfl) res⟩

theorem preemptStep_evSplit {ins : List Process → Process → List Process}
    {grant : Process → List Process → Int} {s s1 : SchedState} {ev : List Ev}
    (h : preemptStep ins grant s = some (s1, ev)) :
    ∃ l1 l2 d, ev = l1 ++ (l2 ++ [Ev.clockAdv d]) ∧
      l1.all (fun x => !x.isAccrualEv) = true ∧
      l1.all (fun x => !x.isClockEv) = true ∧
      l2.all (fun x => !x.isQuantumEv) = true ∧
      l2.all (fun x => !x.isClockEv) = true := by
  unfold preemptStep at h
  split at h
  · exact Option.noConfusion h
  rename_i c s2 ev0 hg
  split at h
  · exact Option.noConfusion h
  rename_i t lft c1 hrun
  split at h
  · exact Option.noConfusion h
  rename_i s3 ev1 haq
  obtain ⟨res, hres, hev1⟩ := afterQueues_inv haq
  have hev0 : ev0 = [] ∨ ∃ a, ev0 = [Ev.stallAdv a] := by
    rcases getNextQ_cases hg with ⟨rs, _, _, he⟩ | ⟨w, rest, rest2, _, _, _, _, he⟩
    · exact Or.inl he
    · exact Or.inr ⟨w.arrival_time, he⟩
  have hl1a : (ev0 ++ [Ev.ranQuantum t]).all (fun x => !x.isAccrualEv) = true := by
    rcases hev0 with rfl | ⟨a, rfl⟩ <;> rfl
  have hl1c : (ev0 ++ [Ev.ranQuantum t]).all (fun x => !x.isClockEv) = true := by
    rcases hev0 with rfl | ⟨a, rfl⟩ <;> rfl
  have hev1q : ev1.all (fun x => !x.isQuantumEv) = true := by
    rw [hev1, List.all_append, Bool.and_eq_true]
    exact ⟨accrueEvents_all (fun i d2 => rfl) t s2.runnable,
           promoteEvents_all (fun i => rfl) res⟩
  have hev1c : ev1.all (fun x => !x.isClockEv) = true := by
    rw [hev1, List.all_append, Bool.and_eq_true]
    exact ⟨accrueEvents_all (fun i d2 => rfl) t s2.runnable,
           promoteEvents_all (fun i => rfl) res⟩
  split at h <;>
    simp only [Option.some.injEq, Prod.mk.injEq] at h <;>
    obtain ⟨h1, h2⟩ := h
  · refine ⟨ev0 ++ [Ev.ranQuantum t], ev1 ++ [Ev.finish c1.id], t, ?_, hl1a, hl1c, ?_, ?_⟩
    · rw [← h2]
      simp [List.append_assoc]
    · rw [List.all_append, Bool.and_eq_true]
      exact ⟨hev1q, by rfl⟩
    · rw [List.all_append, Bool.and_eq_true]
      exact ⟨hev1c, by rfl⟩
  · refine ⟨ev0 ++ [Ev.ranQuantum t], ev1 ++ [Ev.requeue c1.id], t, ?_, hl1a, hl1c, ?_, ?_⟩
    · rw [← h2]
      simp [List.append_assoc]
    · rw [List.all_append, Bool.and_eq_true]
      exact ⟨hev1q, by rfl⟩
    · rw [List.all_append, Bool.and_eq_true]
      exact ⟨hev1c, by rfl⟩

/-- The input refuting claim C4 as stated: one FIFO step on two
runnable processes emits its clock advance before the wait accrual. -/
def c4cex : SchedState := initSched Policy.fifo [mkProcess "P1" 5 0, mkProcess "P2" 3 0]

/-- Claim C4 fails as stated: in the FIFO step on `c4cex` a wait-time
accrual event occurs after the clock-advance event, so accrual is not
applied before the clock advances. -/
theorem claim_C4_cex :
    (stepOf Policy.fifo c4cex).map
      (fun r => noneAfter Ev.isAccrualEv Ev.isClockEv r.2) = some false := by
  decide

/-- Claim C4 (amended): in every step of every policy, wait-time accrual
and arrival promotion happen strictly after the quantum has been
computed and consumed; in Round-Robin and SRTF they also happen before
the clock is advanced by the quantum, whereas in FIFO and SJF the code
advances the clock first and accrues afterwards (the two effects are
independent, so no process is charged running and waiting time for the
same instant either way). -/
theorem claim_C4 (pol : Policy) (s s1 : SchedState) (ev : List Ev)
    (h : stepOf pol s = some (s1, ev)) :
    noneAfter Ev.isQuantumEv Ev.isAccrualEv ev = true ∧
    (pol = Policy.srtf ∨ (∃ k, pol = Policy.rr k) →
      noneAfter Ev.isAccrualEv Ev.isClockEv ev = true) ∧
    (pol = Policy.fifo ∨ pol = Policy.sjf →
      noneAfter Ev.isClockEv Ev.isAccrualEv ev = true) := by
  cases pol with
  | fifo =>
    obtain ⟨l1, l2, rfl, ha, hq, hc⟩ := noPreemptStep_evSplit h
    refine ⟨noneAfter_append (noneAfter_of_noTag ha) hq, ?_, ?_⟩
    · intro hcon
      rcases hcon with hcon | ⟨k, hcon⟩ <;> exact Policy.noConfusion hcon
    · intro _
      exact noneAfter_append (noneAfter_of_noTag ha) hc
  | sjf =>
    obtain ⟨l1, l2, rfl, ha, hq, hc⟩ := noPreemptStep_evSplit h
    refine ⟨noneAfter_append (noneAfter_of_noTag ha) hq, ?_, ?_⟩
    · intro hcon
      rcases hcon with hcon | ⟨k, hcon⟩ <;> exact Policy.noConfusion hcon
    · intro _
      exact noneAfter_append (noneAfter_of_noTag ha) hc
  | rr slice =>
    have h2 : preemptStep appendIns (fun _ _ => slice) s = some (s1, ev) := h
    obtain ⟨l1, l2, d, rfl, hla, hlc, hq, hc⟩ := preemptStep_evSplit h2
    refine ⟨?_, ?_, ?_⟩
    · refine noneAfter_append (noneAfter_of_noTag hla) ?_
      rw [List.all_append, Bool.and_eq_true]
      exact ⟨hq, by rfl⟩
    · intro _
      rw [← List.append_assoc]
      refine noneAfter_append (noneAfter_of_noTag ?_) (by rfl)
      rw [List.all_append, Bool.and_eq_true]
      exact ⟨hlc, hc⟩
    · intro hcon
      rcases hcon with hcon | hcon <;> exact Policy.noConfusion hcon
  | srtf =>
    have h2 : preemptStep insort srtfGrant s = some (s1, ev) := h
    obtain ⟨l1, l2, d, rfl, hla, hlc, hq, hc⟩ := preemptStep_evSplit h2
    refine ⟨?_, ?_, ?_⟩
    · refine noneAfter_append (noneAfter_of_noTag hla) ?_
      rw [List.all_append, Bool.and_eq_true]
      exact ⟨hq, by rfl⟩
    · intro _
      rw [← List.append_assoc]
      refine noneAfter_append (noneAfter_of_noTag ?_) (by rfl)
      rw [List.all_append, Bool.and_eq_true]
      exact ⟨hlc, hc⟩
    · intro hcon
      rcases hcon with hcon | hcon <;> exact Policy.noConfusion hcon

def c4s1 : SchedState :=
  { done_processes := [{ id := "A", ex_time := 1, arrival_time := 0,
                         processed_time := 1, comp_time := 1, wait_time := 0 }],
    runnable := [], waiting := [], time := 1, step_time_ran := 1 }

def c4ev : List Ev := [Ev.ranQuantum 1, Ev.finish "A", Ev.clockAdv 1]

theorem claim_C4_witness :
    noneAfter Ev.isQuantumEv Ev.isAccrualEv c4ev = true ∧
    noneAfter Ev.isAccrualEv Ev.isClockEv c4ev = true :=
  ⟨(claim_C4 (Policy.rr 2) (initSched (Policy.rr 2) [mkProcess "A" 1 0]) c4s1 c4ev
      (by decide)).1,
   (claim_C4 (Policy.rr 2) (initSched (Policy.rr 2) [mkProcess "A" 1 0]) c4s1 c4ev
      (by decide)).2.1 (Or.inr ⟨2, rfl⟩)⟩

/-! ### Claim C8 -/

/-- Claim C8: `run` steps until both queues are empty; the resulting
statistics record holds the sums whose quotients are the arithmetic
means of completion and wait time over the done processes, plus their
count; when no process ever completed (e.g. a scheduler constructed
with zero processes) the computation ends in the DivisionByZero
outcome instead — as it does immediately on the empty input. -/
theorem claim_C8 (pol : Policy) :
    (∀ (fuel : Nat) (s0 sF : SchedState) (out : RunOutcome),
       runSched pol fuel s0 = some (sF, out) →
       sF.isDone = true ∧
       (out = RunOutcome.divZero ↔ sF.done_processes = []) ∧
       (∀ st, out = RunOutcome.ok st →
          st.num_processes_ran = (sF.done_processes.length : Int) ∧
          st.tot_comp = sumComp sF.done_processes ∧
          st.tot_wait = sumWait sF.done_processes ∧
          st.avg_comp_time = (sumComp sF.done_processes : Rat) /
            ((sF.done_processes.length : Int) : Rat) ∧
          st.avg_wait_time = (sumWait sF.done_processes : Rat) /
            ((sF.done_processes.length : Int) : Rat))) ∧
    runSched pol 1 (initSched pol []) = some (initSched pol [], RunOutcome.divZero) := by
  constructor
  · intro fuel
    induction fuel with
    | zero =>
      intro s0 sF out h
      exact Option.noConfusion h
    | succ n ih =>
      intro s0 sF out h
      simp only [runSched] at h
      split at h
      case isTrue hdone =>
        cases hcs : computeStats s0 with
        | none =>
          rw [hcs] at h
          exact Option.noConfusion h
        | some o =>
          rw [hcs] at h
          simp only [Option.some.injEq, Prod.mk.injEq] at h
          obtain ⟨rfl, rfl⟩ := h
          unfold computeStats at hcs
          split_ifs at hcs with hall hlen
          · simp only [Option.some.injEq] at hcs
            subst hcs
            refine ⟨hdone, ?_, ?_⟩
            · simp [List.length_eq_zero.mp hlen]
            · intro st hst
              exact absurd hst.symm (by simp)
          · simp only [Option.some.injEq] at hcs
            subst hcs
            refine ⟨hdone, ?_, ?_⟩
            · constructor
              · intro hdz
                exact absurd hdz.symm (by simp)
              · intro hnil
                rw [hnil] at hlen
                simp at hlen
            · intro st hst
              simp only [RunOutcome.ok.injEq] at hst
              subst hst
              exact ⟨rfl, rfl, rfl, rfl, rfl⟩
      case isFalse hnd =>
        cases hst : stepOf pol s0 with
        | none =>
          rw [hst] at h
          exact Option.noConfusion h
        | some y =>
          obtain ⟨s1, ev1⟩ := y
          rw [hst] at h
          exact ih s1 sF out h
  · cases pol <;> rfl

def c8sF : SchedState :=
  { done_processes := [{ id := "A", ex_time := 4, arrival_time := 0,
                         processed_time := 4, comp_time := 4, wait_time := 0 }],
    runnable := [], waiting := [], time := 4, step_time_ran := 4 }

def c8st : Stats := { tot_comp := 4, tot_wait := 0, num_processes_ran := 1 }

theorem claim_C8_witness :
    c8sF.isDone = true ∧
    c8st.avg_comp_time = (sumComp c8sF.done_processes : Rat) /
      ((c8sF.done_processes.length : Int) : Rat) :=
  ⟨((claim_C8 Policy.fifo).1 2 (initSched Policy.fifo [mkProcess "A" 4 0]) c8sF
      (RunOutcome.ok c8st) (by decide)).1,
   (((claim_C8 Policy.fifo).1 2 (initSched Policy.fifo [mkProcess "A" 4 0]) c8sF
      (RunOutcome.ok c8st) (by decide)).2.2 c8st rfl).2.2.2.1⟩
